import Mathlib

/-!
Verification of the fixed-point primitive, data-model value union, block
ordering, binary codec, IPFS path validation and permission validator of
the ledger engine, as a shallow embedding in Lean.

Machine integers are modelled as `Nat` with overflow made explicit via
comparisons against `2 ^ 64` / `2 ^ 128` (mirroring `overflowing_add`,
`overflowing_sub`, `checked_mul` and the `as u64` truncating casts of the
source).  Theorems about `u64` fields carry the representability
hypotheses `< 2 ^ 64` that the Rust types enforce by construction.
-/

/-- Maximum value of the inner `u64` of `DecimalFraction` (`DecimalFraction::MAX_RAW`),
the last fully represented 19-digit decimal. -/
def MAX_RAW : Nat := 9999999999999999999

/-- Number of values representable in a `u64` machine word. -/
def U64_MOD : Nat := 2 ^ 64

/-- Number of values representable in a `u128` machine word. -/
def U128_MOD : Nat := 2 ^ 128

/-- The `Fixed` binary-coded decimal of `primitives/src/fixed.rs`: an
integral `u64` part and a fractional `u64` part (`DecimalFraction`).
Both fields are modelled as `Nat`; representable values have both
fields `< 2 ^ 64`. -/
structure Fixed where
  integral : Nat
  decimal_fraction : Nat
deriving DecidableEq, Repr

/-- `Fixed::ZERO`. -/
def Fixed.ZERO : Fixed := { integral := 0, decimal_fraction := 0 }

/-- `Fixed::MAX`: integral `u64::MAX`, fraction `DecimalFraction::MAX_RAW`. -/
def Fixed.MAX : Fixed := { integral := U64_MOD - 1, decimal_fraction := MAX_RAW }

/-- `Fixed::checked_add`.  The `u128` sum of the fractions is split by
`MAX_RAW + 1` into carry and updated fraction; the integral parts are
added with `overflowing_add` (overflow iff the true sum reaches `2 ^ 64`),
then the carry is added with a second overflow check. -/
def Fixed.checked_add (a b : Fixed) : Option Fixed :=
  let fractional : Nat := a.decimal_fraction + b.decimal_fraction
  let carry : Nat := fractional / (MAX_RAW + 1)
  let updated_fractional : Nat := fractional % (MAX_RAW + 1)
  if U64_MOD ≤ a.integral + b.integral then
    none
  else
    let acc := a.integral + b.integral
    if U64_MOD ≤ acc + carry then
      none
    else
      some { integral := acc + carry, decimal_fraction := updated_fractional }

/-- `Fixed::checked_sub`.  The fraction difference is computed in `i128`;
a negative difference borrows one from the integral part and is
complemented by `1 + MAX_RAW`; the two `as u64` casts of the source are
the `% 2 ^ 64` / `emod (2 ^ 64)` truncations.  The integral parts are
subtracted with `overflowing_sub` (overflow iff the subtrahend is
larger), then the borrow is subtracted with a second overflow check. -/
def Fixed.checked_sub (a b : Fixed) : Option Fixed :=
  let fractional : Int := (a.decimal_fraction : Int) - (b.decimal_fraction : Int)
  let pair : Nat × Nat :=
    if 0 ≤ fractional then
      (0, fractional.toNat % U64_MOD)
    else
      (1, ((fractional + 1 + (MAX_RAW : Int)) % (U64_MOD : Int)).toNat)
  if a.integral < b.integral then
    none
  else
    let acc := a.integral - b.integral
    if acc < pair.1 then
      none
    else
      some { integral := acc - pair.1, decimal_fraction := pair.2 }

/-- `Fixed::checked_mul`.  Each operand is promoted to the `u128`
composite `integral * (MAX_RAW + 1) + fraction` (wrapping at `2 ^ 128`,
which never triggers for representable operands), the composites are
multiplied with `u128::checked_mul`, and the product is split by
`norm * norm`; both halves are truncated `as u64`, i.e. reduced
`% 2 ^ 64`. -/
def Fixed.checked_mul (a b : Fixed) : Option Fixed :=
  let norm : Nat := MAX_RAW + 1
  let lhs : Nat := (a.integral * norm + a.decimal_fraction) % U128_MOD
  let rhs : Nat := (b.integral * norm + b.decimal_fraction) % U128_MOD
  if U128_MOD ≤ lhs * rhs then
    none
  else
    let prod := lhs * rhs
    some { integral := (prod / (norm * norm)) % U64_MOD,
           decimal_fraction := (prod % (norm * norm)) % U64_MOD }

/-- Model of an IEEE-754 double used by `impl TryFrom<f64> for Fixed`:
NaN, signed infinity, or a finite value carried as an exact rational.
The model has no negative zero (it is numerically equal to zero, and
every operation used below treats them alike). -/
inductive F64 where
  | nan
  | inf (neg : Bool)
  | finite (q : ℚ)
deriving DecidableEq

/-- The comparison `value < 0_f64` (false on NaN). -/
def F64.ltZero : F64 → Bool
  | .nan => false
  | .inf neg => neg
  | .finite q => decide (q < 0)

/-- Value of the Rust expression `u64::MAX as f64`: the conversion rounds
to the nearest double, and the doubles adjacent to `2 ^ 64 - 1` are
`2 ^ 64 - 2048` and `2 ^ 64`, so the result is exactly `2 ^ 64`. -/
def U64_MAX_AS_F64 : ℚ := 2 ^ 64

/-- The comparison `value > u64::MAX as f64` (false on NaN). -/
def F64.gtU64Max : F64 → Bool
  | .nan => false
  | .inf neg => !neg
  | .finite q => decide (U64_MAX_AS_F64 < q)

/-- Truncation toward zero of a rational (exact for doubles). -/
def truncQ (q : ℚ) : Int := if 0 ≤ q then ⌊q⌋ else -⌊-q⌋

/-- `f64::trunc` (exact; NaN and infinities propagate). -/
def F64.trunc : F64 → F64
  | .nan => .nan
  | .inf n => .inf n
  | .finite q => .finite ((truncQ q : Int) : ℚ)

/-- `f64::fract`, computed as `self - self.trunc()` (exact for finite
doubles; NaN on NaN and on infinities). -/
def F64.fract : F64 → F64
  | .nan => .nan
  | .inf _ => .nan
  | .finite q => .finite (q - ((truncQ q : Int) : ℚ))

/-- The saturating Rust cast `as u64`: NaN and negatives go to `0`,
values at or above `u64::MAX` go to `u64::MAX`, otherwise the value is
truncated toward zero. -/
def F64.toU64 : F64 → Nat
  | .nan => 0
  | .inf neg => if neg then 0 else U64_MOD - 1
  | .finite q => (min (truncQ q) ((U64_MOD : Int) - 1)).toNat

/-- Round a rational to an integer, with ties going to the even
neighbour (the tie rule of IEEE round-to-nearest). -/
def roundHalfEven (m : ℚ) : Int :=
  if m - ⌊m⌋ < 1 / 2 then ⌊m⌋
  else if 1 / 2 < m - ⌊m⌋ then ⌊m⌋ + 1
  else if ⌊m⌋ % 2 = 0 then ⌊m⌋ else ⌊m⌋ + 1

/-- Binary64 round-to-nearest-even of a positive rational: the value is
scaled so that its significand occupies 53 bits (fewer below the normal
floor `2 ^ (-1022)`, which also flushes sub-threshold values to zero),
rounded half to even as an integer, and scaled back.  Magnitudes that
would overflow to infinity never arise in `try_from` (the scaled
fraction stays below `10 ^ 19`). -/
def roundPos (q : ℚ) : ℚ :=
  ((roundHalfEven (q * (2 : ℚ) ^ ((52 : Int) - max (Int.log 2 q) (-1022))) : Int) : ℚ)
    * (2 : ℚ) ^ (max (Int.log 2 q) (-1022) - 52)

/-- Binary64 round-to-nearest-even, extended to all rationals by the
sign symmetry of IEEE rounding. -/
def roundQ (q : ℚ) : ℚ :=
  if q = 0 then 0
  else if q < 0 then -roundPos (-q)
  else roundPos q

/-- The scaling step `value.fract() * ((MAX_RAW + 1) as f64)`: the exact
rational product rounded to the nearest binary64 value (ties to even),
as the source's IEEE double multiplication does - e.g. at the double
nearest `0.1` the rounded product is `10 ^ 18`, not `10 ^ 18 + 55.5`. -/
def F64.mulNorm : F64 → F64
  | .nan => .nan
  | .inf n => .inf n
  | .finite q => .finite (roundQ (q * ((MAX_RAW : ℚ) + 1)))

/-- `FixedPointOperationError` of `primitives/src/fixed.rs` (payloads of
the `Conversion` variant dropped). -/
inductive FixedPointOperationError where
  | NegativeValue
  | Conversion
  | Overflow
  | DivideByZero
  | DomainViolation
  | Arithmetic
deriving DecidableEq, Repr

/-- `impl TryFrom<f64> for Fixed`: negative inputs are rejected with
`NegativeValue`, inputs greater than `u64::MAX as f64` with `Overflow`,
and everything else (NaN included) is accepted, with the two saturating
`as u64` casts producing the integral and scaled fractional parts. -/
def Fixed.try_from (value : F64) : Except FixedPointOperationError Fixed :=
  if value.ltZero then
    .error .NegativeValue
  else if value.gtU64Max then
    .error .Overflow
  else
    .ok { integral := value.trunc.toU64,
          decimal_fraction := value.fract.mulNorm.toU64 }

/-- A character string, modelled as its list of Unicode scalar values. -/
abbrev Str := List Char

/-- The validated identifier `Name` (its definition is outside src/;
modelled from the spec as a plain string wrapper). -/
structure Name where
  str : Str
deriving DecidableEq

/-- Opaque payload standing in for an entity type whose definition is not
under src/ (Hash, PublicKey, IdBox, IdentifiableBox, Parameter,
TransactionValue, TransactionQueryResult, PermissionToken, Event, the
versioned transaction wrappers).  Modelled from the spec: each such
entity has some fixed round-tripping binary encoding; here it is carried
as raw bytes. -/
structure Blob where
  bytes : List Nat
deriving DecidableEq

/-- Modelled from the spec: the condition expression wrapped by
`SignatureCheckCondition` (`EvaluatesTo<bool>`, defined outside src/).
Only its structural length (the `len` that `Value::len` forwards to) and
an opaque encoding are retained. -/
structure ExprModel where
  size : Nat
  payload : List Nat
deriving DecidableEq

/-- `SignatureCheckCondition`: a newtype over the condition expression. -/
structure SignatureCheckCondition where
  expr : ExprModel
deriving DecidableEq

/-- `BlockHeaderValue` of `data_model/src/block_value.rs`, fields in
source order; the hash-typed fields are opaque leaves; `timestamp` is a
`u128` and `height` a `u64`. -/
structure BlockHeaderValue where
  timestamp : Nat
  height : Nat
  previous_block_hash : Blob
  transactions_hash : Blob
  rejected_transactions_hash : Blob
  invalidated_blocks_hashes : List Blob
  current_block_hash : Blob
deriving DecidableEq

/-- `BlockValue` of `data_model/src/block_value.rs`, fields in source
order; the transaction and event types are opaque leaves. -/
structure BlockValue where
  header : BlockHeaderValue
  transactions : List Blob
  rejected_transactions : List Blob
  event_recommendations : List Blob
deriving DecidableEq

/-- The `Value` union of `data_model/src/value.rs`, variants in source
order (which fixes the codec index of each variant).  The `Metadata` map
of the `LimitedMetadata` variant (defined outside src/) is modelled from
the spec as an association list from names to values; `BlockValueWrapper`
is a transparent wrapper around `BlockValue` and is inlined. -/
inductive Value where
  | u32 (x : Nat)
  | u128 (x : Nat)
  | bool (b : Bool)
  | string (s : Str)
  | name (n : Name)
  | fixed (f : Fixed)
  | vec (xs : List Value)
  | limitedMetadata (m : List (Name × Value))
  | id (i : Blob)
  | identifiable (e : Blob)
  | publicKey (k : Blob)
  | parameter (p : Blob)
  | signatureCheckCondition (s : SignatureCheckCondition)
  | transactionValue (t : Blob)
  | transactionQueryResult (t : Blob)
  | permissionToken (t : Blob)
  | hash (h : Blob)
  | block (b : BlockValue)
  | blockHeader (h : BlockHeaderValue)

mutual

/-- `Value::len` of `data_model/src/value.rs`: every variant is 1 except
`Vec` (1 plus the sum of the elements' lengths), `LimitedMetadata`
(1 plus the map's nested length) and `SignatureCheckCondition` (the
length of the wrapped condition expression, `s.0.len()`). -/
def Value.len : Value → Nat
  | .vec v => Value.listLen v + 1
  | .limitedMetadata m => Value.nestedLen m + 1
  | .signatureCheckCondition s => s.expr.size
  | _ => 1

/-- `v.iter().map(Self::len).sum()` over a sequence of values. -/
def Value.listLen : List Value → Nat
  | [] => 0
  | x :: xs => Value.len x + Value.listLen xs

/-- Modelled from the spec: `Metadata::nested_len` (metadata module not
under src/), the nested element count of a metadata map, i.e. the sum of
the structural sizes of the stored values. -/
def Value.nestedLen : List (Name × Value) → Nat
  | [] => 0
  | p :: rest => Value.len p.2 + Value.nestedLen rest

end

/-- `impl Ord for BlockHeaderValue`: `self.timestamp.cmp(&other.timestamp)`. -/
def BlockHeaderValue.cmp (a b : BlockHeaderValue) : Ordering :=
  compare a.timestamp b.timestamp

/-- `impl Ord for BlockValue`: `self.header.cmp(&other.header)`. -/
def BlockValue.cmp (a b : BlockValue) : Ordering :=
  a.header.cmp b.header

/-- Length prefix, as a little-endian base-128 varint (fuel-structured so
that it computes by reduction; `fuel ≥ n` always suffices).  Modelled
from the spec: the SCALE compact-integer codec lives in the
parity-scale-codec crate, not under src/; the spec's contract is a
self-delimiting round-tripping length encoding. -/
def encNatAux (fuel n : Nat) : List Nat :=
  match fuel with
  | 0 => [n]
  | fuel + 1 => if n < 128 then [n] else (n % 128 + 128) :: encNatAux fuel (n / 128)

/-- Length prefix of `n`, with enough fuel to emit every digit. -/
def encNat (n : Nat) : List Nat := encNatAux n n

/-- Decoder for `encNat`. -/
def decNat : List Nat → Option (Nat × List Nat)
  | [] => none
  | b :: rest =>
    if b < 128 then some (b, rest)
    else
      match decNat rest with
      | none => none
      | some (m, r) => some (b - 128 + 128 * m, r)

/-- String encoding: length prefix followed by the scalar values.
Modelled from the spec: `String`/`ConstString` SCALE codecs (length
prefix plus UTF-8 bytes) live outside src/. -/
def encStr (s : Str) : List Nat :=
  encNat s.length ++ s.map Char.toNat

/-- Reads `k` scalar values. -/
def decChars : Nat → List Nat → Option (Str × List Nat)
  | 0, bs => some ([], bs)
  | _ + 1, [] => none
  | k + 1, b :: bs =>
    match decChars k bs with
    | none => none
    | some (cs, r) => some (Char.ofNat b :: cs, r)

/-- Decoder for `encStr`. -/
def decStr (bs : List Nat) : Option (Str × List Nat) :=
  match decNat bs with
  | none => none
  | some (n, r) => decChars n r

/-- `str::split('/')`: the list of (possibly empty) segments between
slashes; always non-empty. -/
def splitSlash : Str → List Str
  | [] => [[]]
  | c :: rest =>
    if c = '/' then [] :: splitSlash rest
    else
      match splitSlash rest with
      | [] => [[c]]
      | s :: ss => (c :: s) :: ss

/-- Number of UTF-8 bytes of one Unicode scalar value. -/
def charUtf8Len (c : Char) : Nat :=
  if c.toNat < 128 then 1
  else if c.toNat < 2048 then 2
  else if c.toNat < 65536 then 3
  else 4

/-- `str::len`: the UTF-8 byte length of a string. -/
def strUtf8Len (s : Str) : Nat := (s.map charUtf8Len).sum

/-- `ParseError` carrying its static reason message. -/
structure ParseError where
  reason : String
deriving DecidableEq

/-- `IpfsPath::check_cid`: superficially checks a content identifier -
its byte length must be at least 2. -/
def check_cid (cid : Str) : Except ParseError Unit :=
  if strUtf8Len cid < 2 then .error { reason := "IPFS cid is too short" }
  else .ok ()

/-- The trailing `for path in subpath { Self::check_cid(path)? }` loop. -/
def checkRest : List Str → Except ParseError Unit
  | [] => .ok ()
  | p :: rest =>
    match check_cid p with
    | .error e => .error e
    | .ok _ => checkRest rest

/-- `IpfsPath` of `data_model/src/ipfs.rs`: a wrapper over the raw
string; validity is established by `from_str` and re-checked on decode. -/
structure IpfsPath where
  path : Str
deriving DecidableEq

/-- `impl FromStr for IpfsPath`: an empty first segment demands a root
type (`ipfs`/`ipld` roots check the following cid, `ipns` does not
check it); a non-empty first segment is checked as a cid; every later
segment is checked as a cid; on success the original string is kept. -/
def IpfsPath.from_str (s : Str) : Except ParseError IpfsPath :=
  match splitSlash s with
  | [] => .error { reason := "Impossible error: first value of str::split() always has value" }
  | path_segment :: subpath =>
    if path_segment.isEmpty then
      match subpath with
      | [] => .error { reason := "Expected root type, but nothing found" }
      | root_type :: rest1 =>
        match rest1 with
        | [] => .error { reason := "Expected at least one content id" }
        | key :: remaining =>
          if root_type = "ipfs".toList ∨ root_type = "ipld".toList then
            match check_cid key with
            | .error e => .error e
            | .ok _ =>
              match checkRest remaining with
              | .error e => .error e
              | .ok _ => .ok { path := s }
          else if root_type = "ipns".toList then
            match checkRest remaining with
            | .error e => .error e
            | .ok _ => .ok { path := s }
          else .error { reason := "Unexpected root type. Expected `ipfs`, `ipld` or `ipns`" }
    else
      match check_cid path_segment with
      | .error e => .error e
      | .ok _ =>
        match checkRest subpath with
        | .error e => .error e
        | .ok _ => .ok { path := s }

/-- `impl Decode for IpfsPath`: decode the inner `ConstString`, then
validate it with `FromStr`, turning the parse reason into the codec
error. -/
def IpfsPath.decode (bytes : List Nat) : Except String (IpfsPath × List Nat) :=
  match decStr bytes with
  | none => .error ("Not enough data to fill buffer")
  | some (s, rest) =>
    match IpfsPath.from_str s with
    | .error e => .error e.reason
    | .ok p => .ok (p, rest)

/-- Modelled from the spec (the private-blockchain permission validators
of permissions_validators/src are not under src/, only their tests): a
named, optionally parameterised permission token, addressed by exact
name match. -/
structure PermissionToken where
  name : String
deriving DecidableEq

/-- The `CanRegisterDomains` token granted by
`register::CanRegisterDomains::new()`. -/
def CanRegisterDomains : PermissionToken := { name := "can_register_domains" }

/-- Modelled from the spec: an account as seen by the validator - its id
and the set of granted permission tokens. -/
structure PbAccount where
  id : String
  permission_tokens : List PermissionToken

/-- Modelled from the spec: a domain owning accounts. -/
structure PbDomain where
  id : String
  accounts : List PbAccount

/-- Modelled from the spec: the WSV snapshot the validator consults -
the registered domains. -/
structure Wsv where
  domains : List PbDomain

/-- All accounts of the world. -/
def Wsv.allAccounts (w : Wsv) : List PbAccount :=
  (w.domains.map PbDomain.accounts).flatten

/-- Account lookup by authority id. -/
def Wsv.findAccount (w : Wsv) (authority : String) : Option PbAccount :=
  w.allAccounts.find? (fun a => a.id = authority)

/-- Does the authority's account hold the given token? -/
def Wsv.hasToken (w : Wsv) (authority : String) (t : PermissionToken) : Bool :=
  match w.findAccount authority with
  | none => false
  | some acc => acc.permission_tokens.contains t

/-- Modelled from the spec: the instruction shapes the validator
distinguishes. -/
inductive Instruction where
  | registerDomain (name : String)
  | registerAccount (name : String)
  | other (tag : String)

/-- The Allow / Deny(reason) verdict. -/
inductive Verdict where
  | allow
  | deny (reason : String)
deriving DecidableEq

/-- Whether a verdict is an allowance. -/
def Verdict.is_allow : Verdict → Bool
  | .allow => true
  | .deny _ => false

/-- Modelled from the spec: the validator built from
`register::GrantedAllowedRegisterDomains` - for a Register-Domain
instruction it allows exactly the authorities whose account holds the
`CanRegisterDomains` token in the consulted WSV snapshot, denying all
others; instructions that do not register a domain are not its concern. -/
def grantedAllowedRegisterDomains (authority : String) (instruction : Instruction)
    (wsv : Wsv) : Verdict :=
  match instruction with
  | .registerDomain _ =>
    if wsv.hasToken authority CanRegisterDomains then .allow
    else .deny ("Account does not hold the can_register_domains token")
  | _ => .allow

/-- Fixed-width little-endian byte encoding of an unsigned machine word
(`u32` is 4 bytes, `u64` 8, `u128` 16), per the spec's fixed-width
numeric fields (the derive itself lives in parity-scale-codec, outside
src/). -/
def encFixedWidth : Nat → Nat → List Nat
  | 0, _ => []
  | w + 1, n => n % 256 :: encFixedWidth w (n / 256)

/-- Decoder for `encFixedWidth`. -/
def decFixedWidth : Nat → List Nat → Option (Nat × List Nat)
  | 0, bs => some (0, bs)
  | _ + 1, [] => none
  | w + 1, b :: bs =>
    match decFixedWidth w bs with
    | none => none
    | some (m, r) => some (b + 256 * m, r)

/-- One-byte boolean encoding. -/
def encBool (b : Bool) : List Nat := [if b then 1 else 0]

/-- Decoder for `encBool` (any other byte is rejected). -/
def decBool : List Nat → Option (Bool × List Nat)
  | [] => none
  | b :: r =>
    if b = 0 then some (false, r)
    else if b = 1 then some (true, r)
    else none

/-- Opaque-leaf encoding: length prefix plus raw bytes. -/
def encBlob (x : Blob) : List Nat := encNat x.bytes.length ++ x.bytes

/-- Decoder for `encBlob`. -/
def decBlob (bs : List Nat) : Option (Blob × List Nat) :=
  match decNat bs with
  | none => none
  | some (n, r) =>
    if n ≤ r.length then some (⟨r.take n⟩, r.drop n) else none

/-- List encoding: length prefix plus concatenated element encodings. -/
def encListWith (f : α → List Nat) (xs : List α) : List Nat :=
  encNat xs.length ++ (xs.map f).flatten

/-- Reads `k` consecutive elements with the given element decoder. -/
def decCount (dec : List Nat → Option (α × List Nat)) :
    Nat → List Nat → Option (List α × List Nat)
  | 0, bs => some ([], bs)
  | k + 1, bs =>
    match dec bs with
    | none => none
    | some (x, r) =>
      match decCount dec k r with
      | none => none
      | some (xs, r2) => some (x :: xs, r2)

/-- Decoder for `encListWith`. -/
def decListWith (dec : List Nat → Option (α × List Nat)) (bs : List Nat) :
    Option (List α × List Nat) :=
  match decNat bs with
  | none => none
  | some (n, r) => decCount dec n r

/-- Option encoding: explicit presence byte, then the payload. -/
def encOptionWith (f : α → List Nat) : Option α → List Nat
  | none => [0]
  | some x => 1 :: f x

/-- Decoder for `encOptionWith`. -/
def decOptionWith (dec : List Nat → Option (α × List Nat)) :
    List Nat → Option (Option α × List Nat)
  | [] => none
  | b :: r =>
    if b = 0 then some (none, r)
    else if b = 1 then
      match dec r with
      | none => none
      | some (x, r2) => some (some x, r2)
    else none

/-- `Name` encoding: its string. -/
def encName (n : Name) : List Nat := encStr n.str

/-- Decoder for `encName`. -/
def decName (bs : List Nat) : Option (Name × List Nat) :=
  match decStr bs with
  | none => none
  | some (s, r) => some (⟨s⟩, r)

/-- `Fixed` encoding: the two `u64` fields, little-endian, in order. -/
def encFixedPoint (f : Fixed) : List Nat :=
  encFixedWidth 8 f.integral ++ encFixedWidth 8 f.decimal_fraction

/-- Decoder for `encFixedPoint`. -/
def decFixedPoint (bs : List Nat) : Option (Fixed × List Nat) :=
  match decFixedWidth 8 bs with
  | none => none
  | some (i, r) =>
    match decFixedWidth 8 r with
    | none => none
    | some (d, r2) => some (⟨i, d⟩, r2)

/-- Encoding of the modelled condition expression. -/
def encExpr (e : ExprModel) : List Nat :=
  encNat e.size ++ encBlob ⟨e.payload⟩

/-- Decoder for `encExpr`. -/
def decExpr (bs : List Nat) : Option (ExprModel × List Nat) :=
  match decNat bs with
  | none => none
  | some (sz, r) =>
    match decBlob r with
    | none => none
    | some (b, r2) => some (⟨sz, b.bytes⟩, r2)

/-- Encoding of a map entry of two opaque leaves (account / asset maps). -/
def encPairBlob (p : Blob × Blob) : List Nat := encBlob p.1 ++ encBlob p.2

/-- Decoder for `encPairBlob`. -/
def decPairBlob (bs : List Nat) : Option ((Blob × Blob) × List Nat) :=
  match decBlob bs with
  | none => none
  | some (a, r) =>
    match decBlob r with
    | none => none
    | some (b, r2) => some ((a, b), r2)

/-- `IpfsPath` encoding: the derived `Encode` emits the inner string. -/
def encIpfsPath (p : IpfsPath) : List Nat := encStr p.path

/-- `IpfsPath` decoding as used inside larger decoders: the validating
`Decode` impl, with codec errors collapsed to `none`. -/
def decIpfsOpt (bs : List Nat) : Option (IpfsPath × List Nat) :=
  match IpfsPath.decode bs with
  | .error _ => none
  | .ok pr => some pr

/-- `BlockHeaderValue` encoding: derived `Encode`, fields in order. -/
def encHeader (h : BlockHeaderValue) : List Nat :=
  encFixedWidth 16 h.timestamp ++ encFixedWidth 8 h.height
    ++ encBlob h.previous_block_hash ++ encBlob h.transactions_hash
    ++ encBlob h.rejected_transactions_hash
    ++ encListWith encBlob h.invalidated_blocks_hashes
    ++ encBlob h.current_block_hash

/-- Decoder for `encHeader`. -/
def decHeader (bs : List Nat) : Option (BlockHeaderValue × List Nat) :=
  match decFixedWidth 16 bs with
  | none => none
  | some (ts, r1) =>
    match decFixedWidth 8 r1 with
    | none => none
    | some (ht, r2) =>
      match decBlob r2 with
      | none => none
      | some (pbh, r3) =>
        match decBlob r3 with
        | none => none
        | some (th, r4) =>
          match decBlob r4 with
          | none => none
          | some (rth, r5) =>
            match decListWith decBlob r5 with
            | none => none
            | some (inv, r6) =>
              match decBlob r6 with
              | none => none
              | some (cbh, r7) => some (⟨ts, ht, pbh, th, rth, inv, cbh⟩, r7)

/-- `BlockValue` encoding: derived `Encode`, fields in order. -/
def encBlockValue (b : BlockValue) : List Nat :=
  encHeader b.header ++ encListWith encBlob b.transactions
    ++ encListWith encBlob b.rejected_transactions
    ++ encListWith encBlob b.event_recommendations

/-- Decoder for `encBlockValue`. -/
def decBlockValue (bs : List Nat) : Option (BlockValue × List Nat) :=
  match decHeader bs with
  | none => none
  | some (h, r1) =>
    match decListWith decBlob r1 with
    | none => none
    | some (txs, r2) =>
      match decListWith decBlob r2 with
      | none => none
      | some (rtxs, r3) =>
        match decListWith decBlob r3 with
        | none => none
        | some (evs, r4) => some (⟨h, txs, rtxs, evs⟩, r4)

mutual

/-- `Value` encoding: derived `Encode` for a `#[repr(u8)]` enum - the
variant index in declaration order, then the variant payload. -/
def encValue : Value → List Nat
  | .u32 x => 0 :: encFixedWidth 4 x
  | .u128 x => 1 :: encFixedWidth 16 x
  | .bool b => 2 :: encBool b
  | .string s => 3 :: encStr s
  | .name n => 4 :: encName n
  | .fixed f => 5 :: encFixedPoint f
  | .vec xs => 6 :: (encNat xs.length ++ encValueList xs)
  | .limitedMetadata m => 7 :: (encNat m.length ++ encMetaEntries m)
  | .id i => 8 :: encBlob i
  | .identifiable e => 9 :: encBlob e
  | .publicKey k => 10 :: encBlob k
  | .parameter p => 11 :: encBlob p
  | .signatureCheckCondition s => 12 :: encExpr s.expr
  | .transactionValue t => 13 :: encBlob t
  | .transactionQueryResult t => 14 :: encBlob t
  | .permissionToken t => 15 :: encBlob t
  | .hash h => 16 :: encBlob h
  | .block b => 17 :: encBlockValue b
  | .blockHeader h => 18 :: encHeader h

/-- Concatenated encodings of a sequence of values. -/
def encValueList : List Value → List Nat
  | [] => []
  | x :: xs => encValue x ++ encValueList xs

/-- Concatenated encodings of metadata entries (name, then value). -/
def encMetaEntries : List (Name × Value) → List Nat
  | [] => []
  | p :: rest => encName p.1 ++ encValue p.2 ++ encMetaEntries rest

end

mutual

/-- Decoder for `encValue`; `fuel` bounds the nesting depth (any fuel at
least the value's depth suffices). -/
def decValue : Nat → List Nat → Option (Value × List Nat)
  | 0, _ => none
  | fuel + 1, bs =>
    match bs with
    | [] => none
    | t :: r =>
      if t = 0 then
        match decFixedWidth 4 r with
        | none => none
        | some (x, r2) => some (.u32 x, r2)
      else if t = 1 then
        match decFixedWidth 16 r with
        | none => none
        | some (x, r2) => some (.u128 x, r2)
      else if t = 2 then
        match decBool r with
        | none => none
        | some (b, r2) => some (.bool b, r2)
      else if t = 3 then
        match decStr r with
        | none => none
        | some (s, r2) => some (.string s, r2)
      else if t = 4 then
        match decName r with
        | none => none
        | some (n, r2) => some (.name n, r2)
      else if t = 5 then
        match decFixedPoint r with
        | none => none
        | some (f, r2) => some (.fixed f, r2)
      else if t = 6 then
        match decNat r with
        | none => none
        | some (n, r2) =>
          match decValueCount fuel n r2 with
          | none => none
          | some (xs, r3) => some (.vec xs, r3)
      else if t = 7 then
        match decNat r with
        | none => none
        | some (n, r2) =>
          match decMetaCount fuel n r2 with
          | none => none
          | some (m, r3) => some (.limitedMetadata m, r3)
      else if t = 8 then
        match decBlob r with
        | none => none
        | some (i, r2) => some (.id i, r2)
      else if t = 9 then
        match decBlob r with
        | none => none
        | some (e, r2) => some (.identifiable e, r2)
      else if t = 10 then
        match decBlob r with
        | none => none
        | some (k, r2) => some (.publicKey k, r2)
      else if t = 11 then
        match decBlob r with
        | none => none
        | some (p, r2) => some (.parameter p, r2)
      else if t = 12 then
        match decExpr r with
        | none => none
        | some (e, r2) => some (.signatureCheckCondition ⟨e⟩, r2)
      else if t = 13 then
        match decBlob r with
        | none => none
        | some (x, r2) => some (.transactionValue x, r2)
      else if t = 14 then
        match decBlob r with
        | none => none
        | some (x, r2) => some (.transactionQueryResult x, r2)
      else if t = 15 then
        match decBlob r with
        | none => none
        | some (x, r2) => some (.permissionToken x, r2)
      else if t = 16 then
        match decBlob r with
        | none => none
        | some (x, r2) => some (.hash x, r2)
      else if t = 17 then
        match decBlockValue r with
        | none => none
        | some (b, r2) => some (.block b, r2)
      else if t = 18 then
        match decHeader r with
        | none => none
        | some (h, r2) => some (.blockHeader h, r2)
      else none
termination_by fuel _ => (fuel, 0)

/-- Reads `k` consecutive values. -/
def decValueCount : Nat → Nat → List Nat → Option (List Value × List Nat)
  | _, 0, bs => some ([], bs)
  | fuel, k + 1, bs =>
    match decValue fuel bs with
    | none => none
    | some (v, r) =>
      match decValueCount fuel k r with
      | none => none
      | some (vs, r2) => some (v :: vs, r2)
termination_by fuel k _ => (fuel, k + 1)

/-- Reads `k` consecutive metadata entries. -/
def decMetaCount : Nat → Nat → List Nat → Option (List (Name × Value) × List Nat)
  | _, 0, bs => some ([], bs)
  | fuel, k + 1, bs =>
    match decName bs with
    | none => none
    | some (n, r) =>
      match decValue fuel r with
      | none => none
      | some (v, r2) =>
        match decMetaCount fuel k r2 with
        | none => none
        | some (ps, r3) => some ((n, v) :: ps, r3)
termination_by fuel k _ => (fuel, k + 1)

end

/-- `domain::Id` of `data_model/src/domain.rs`: a wrapper over `Name`. -/
structure DomainId where
  name : Name

/-- `Domain` of `data_model/src/domain.rs`, fields in source order:
id, accounts, asset_definitions, logo, metadata.  The `Account` /
`AssetDefinitionEntry` map entries (defined outside src/) are opaque
key/value leaves; the metadata map holds full values. -/
structure Domain where
  id : DomainId
  accounts : List (Blob × Blob)
  asset_definitions : List (Blob × Blob)
  logo : Option IpfsPath
  metadata : List (Name × Value)

/-- `Domain` encoding: derived `Encode`, fields in order. -/
def encDomain (d : Domain) : List Nat :=
  encName d.id.name ++ encListWith encPairBlob d.accounts
    ++ encListWith encPairBlob d.asset_definitions
    ++ encOptionWith encIpfsPath d.logo
    ++ (encNat d.metadata.length ++ encMetaEntries d.metadata)

/-- Decoder for `encDomain` (the re-validating `IpfsPath` decode is used
for the logo, as in the source). -/
def decDomain (fuel : Nat) (bs : List Nat) : Option (Domain × List Nat) :=
  match decName bs with
  | none => none
  | some (nm, r1) =>
    match decListWith decPairBlob r1 with
    | none => none
    | some (accs, r2) =>
      match decListWith decPairBlob r2 with
      | none => none
      | some (adefs, r3) =>
        match decOptionWith decIpfsOpt r3 with
        | none => none
        | some (lg, r4) =>
          match decNat r4 with
          | none => none
          | some (n, r5) =>
            match decMetaCount fuel n r5 with
            | none => none
            | some (meta, r6) => some (⟨⟨nm⟩, accs, adefs, lg, meta⟩, r6)

/-- Representability of a header: its machine-word fields fit. -/
def wfHeader (h : BlockHeaderValue) : Bool :=
  decide (h.timestamp < U128_MOD) && decide (h.height < U64_MOD)

/-- Representability of a block. -/
def wfBlockValue (b : BlockValue) : Bool := wfHeader b.header

/-- The `FromStr` validity of a stored IPFS path (every `IpfsPath` built
through the public constructor satisfies it). -/
def validIpfs (p : IpfsPath) : Bool :=
  match IpfsPath.from_str p.path with
  | .ok _ => true
  | .error _ => false

mutual

/-- Representability of a value: machine-word payloads fit their width
(guaranteed by the Rust types), recursively. -/
def wfValue : Value → Bool
  | .u32 x => decide (x < 2 ^ 32)
  | .u128 x => decide (x < U128_MOD)
  | .fixed f => decide (f.integral < U64_MOD) && decide (f.decimal_fraction < U64_MOD)
  | .vec xs => wfValueList xs
  | .limitedMetadata m => wfMetaEntries m
  | .block b => wfBlockValue b
  | .blockHeader h => wfHeader h
  | _ => true

/-- Representability of each element of a sequence. -/
def wfValueList : List Value → Bool
  | [] => true
  | x :: xs => wfValue x && wfValueList xs

/-- Representability of each stored metadata value. -/
def wfMetaEntries : List (Name × Value) → Bool
  | [] => true
  | p :: rest => wfValue p.2 && wfMetaEntries rest

end

/-- Representability of a domain: a stored logo is a valid IPFS path and
the metadata values are representable. -/
def wfDomain (d : Domain) : Bool :=
  (match d.logo with
   | none => true
   | some p => validIpfs p) && wfMetaEntries d.metadata

mutual

/-- Nesting depth of a value (bounds the decoder fuel). -/
def depthValue : Value → Nat
  | .vec xs => depthValueList xs + 1
  | .limitedMetadata m => depthMetaEntries m + 1
  | _ => 1

/-- Largest element depth of a sequence. -/
def depthValueList : List Value → Nat
  | [] => 0
  | x :: xs => max (depthValue x) (depthValueList xs)

/-- Largest stored-value depth of a metadata map. -/
def depthMetaEntries : List (Name × Value) → Nat
  | [] => 0
  | p :: rest => max (depthValue p.2) (depthMetaEntries rest)

end

/-- A trivial block header, used by concrete witnesses. -/
def sampleHeader : BlockHeaderValue :=
  { timestamp := 0, height := 0, previous_block_hash := ⟨[]⟩,
    transactions_hash := ⟨[]⟩, rejected_transactions_hash := ⟨[]⟩,
    invalidated_blocks_hashes := [], current_block_hash := ⟨[]⟩ }

/-- A trivial block, used by concrete witnesses. -/
def sampleBlock : BlockValue :=
  { header := sampleHeader, transactions := [], rejected_transactions := [],
    event_recommendations := [] }

/-- A small domain with a logo and one metadata entry, used by concrete
witnesses. -/
def sampleDomain : Domain :=
  { id := ⟨⟨("wonderland".toList)⟩⟩,
    accounts := [(⟨[1]⟩, ⟨[2, 3]⟩)],
    asset_definitions := [],
    logo := some ⟨("/ipns/ab".toList)⟩,
    metadata := [(⟨("key".toList)⟩, Value.bool true)] }

/-- C1: for `x = fixed(0, MAX_RAW)` (a representable value, asserted to be
preserved under multiplication by one by the source's own
`mul_div_neutral_element` test), `x.checked_mul(fixed(1, 0))` does not
return `Some(x)`: the fractional half of the product is reduced modulo
`2 ^ 64` instead of being divided by `10 ^ 19`, yielding the garbage
fraction `9134143625110224896`. -/
theorem checked_mul_one_failing :
    Fixed.checked_mul { integral := 0, decimal_fraction := MAX_RAW }
        { integral := 1, decimal_fraction := 0 }
      = some { integral := 0, decimal_fraction := 9134143625110224896 }
    ∧ (9134143625110224896 : Nat) ≠ MAX_RAW := by
  constructor
  · decide
  · decide

/-- C3: `Fixed::MAX.checked_add(fixed(0, 1))` is `None` (integral
overflow at the upper boundary), and `fixed(0, 0).checked_sub(fixed(0, 1))`
is `None` (a negative algebraic result is reported as `None`). -/
theorem boundary_add_overflow_sub_underflow :
    Fixed.checked_add Fixed.MAX { integral := 0, decimal_fraction := 1 } = none
    ∧ Fixed.checked_sub Fixed.ZERO { integral := 0, decimal_fraction := 1 } = none := by
  constructor
  · decide
  · decide

/-- C2: for valid fractions (`≤ MAX_RAW`), if `a.checked_add(b) = Some(c)`
then `c.checked_sub(b) = Some(a)` exactly, with no precision loss. -/
theorem checked_add_sub_roundtrip (a b c : Fixed)
    (haf : a.decimal_fraction ≤ MAX_RAW) (hbf : b.decimal_fraction ≤ MAX_RAW)
    (h : a.checked_add b = some c) :
    c.checked_sub b = some a := by
  obtain ⟨ai, af⟩ := a
  obtain ⟨bi, bf⟩ := b
  obtain ⟨ci, cf⟩ := c
  simp only [Fixed.checked_add, MAX_RAW, U64_MOD, Nat.reducePow, Nat.reduceAdd] at h
  simp only [MAX_RAW] at haf hbf
  split_ifs at h with h1 h2
  rw [Option.some.injEq, Fixed.mk.injEq] at h
  obtain ⟨hci, hcf⟩ := h
  simp only [Fixed.checked_sub, MAX_RAW, U64_MOD, Nat.reducePow, Nat.reduceAdd]
  by_cases hfr : bf ≤ cf
  · rw [if_pos (show (0 : Int) ≤ (cf : Int) - (bf : Int) by omega)]
    rw [if_neg (show ¬ ci < bi by omega)]
    rw [if_neg (show ¬ ci - bi < 0 by omega)]
    rw [Option.some.injEq, Fixed.mk.injEq]
    refine ⟨by omega, by omega⟩
  · rw [if_neg (show ¬ (0 : Int) ≤ (cf : Int) - (bf : Int) by omega)]
    rw [if_neg (show ¬ ci < bi by omega)]
    rw [if_neg (show ¬ ci - bi < 1 by omega)]
    rw [Option.some.injEq, Fixed.mk.injEq]
    refine ⟨by omega, by push_cast; omega⟩

/-- Witness for C2 at `a = fixed(1, MAX_RAW)`, `b = fixed(3, 5)`,
whose checked sum is `fixed(5, 4)`. -/
theorem checked_add_sub_roundtrip_witness :
    Fixed.checked_sub { integral := 5, decimal_fraction := 4 }
        { integral := 3, decimal_fraction := 5 }
      = some { integral := 1, decimal_fraction := MAX_RAW } := by
  exact checked_add_sub_roundtrip
    { integral := 1, decimal_fraction := MAX_RAW }
    { integral := 3, decimal_fraction := 5 }
    { integral := 5, decimal_fraction := 4 }
    (by decide) (by decide) (by decide)

/-- C9: `Fixed::try_from(f64::NAN)` returns `Ok(fixed(0, 0))` rather than
an error: NaN fails both the `< 0` check and the `> u64::MAX as f64`
check (IEEE comparisons with NaN are false), and the saturating `as u64`
casts map NaN to zero. -/
theorem try_from_nan_is_ok_zero :
    Fixed.try_from F64.nan = .ok { integral := 0, decimal_fraction := 0 } := by
  rfl

/-- C4 counterexample: the double `2 ^ 64` strictly exceeds `u64::MAX`,
yet `Fixed::try_from` accepts it (the guard compares against
`u64::MAX as f64 = 2 ^ 64`, and the saturating cast clamps the integral
part to `u64::MAX`), instead of returning `Err(Overflow)` as the claim
requires for every input exceeding `u64::MAX`. -/
theorem try_from_pow64_not_overflow :
    Fixed.try_from (F64.finite (2 ^ 64))
      = .ok { integral := U64_MOD - 1, decimal_fraction := 0 }
    ∧ ((U64_MOD - 1 : Nat) : ℚ) < 2 ^ 64 := by
  constructor
  · simp only [Fixed.try_from, F64.ltZero, F64.gtU64Max, U64_MAX_AS_F64, F64.trunc,
      F64.fract, F64.mulNorm, roundQ, F64.toU64, truncQ, U64_MOD]
    norm_num
    omega
  · norm_num [U64_MOD]

/-- Helper: half-to-even rounding moves a rational up by at most one
half. -/
theorem roundHalfEven_le (m : ℚ) : (roundHalfEven m : ℚ) ≤ m + 1 / 2 := by
  have h1 : ((⌊m⌋ : Int) : ℚ) ≤ m := Int.floor_le m
  have h2 : m < ((⌊m⌋ : Int) : ℚ) + 1 := Int.lt_floor_add_one m
  unfold roundHalfEven
  split_ifs with ha hb hc <;> push_cast <;> linarith

/-- Helper: half-to-even rounding of a non-negative rational is
non-negative. -/
theorem roundHalfEven_nonneg (m : ℚ) (hm : 0 ≤ m) : 0 ≤ roundHalfEven m := by
  have h1 : (0 : Int) ≤ ⌊m⌋ := Int.floor_nonneg.mpr hm
  unfold roundHalfEven
  split_ifs <;> omega

/-- Helper: binary64 rounding preserves non-negativity. -/
theorem roundQ_nonneg (q : ℚ) (hq : 0 ≤ q) : 0 ≤ roundQ q := by
  unfold roundQ
  split_ifs with h0 hneg
  · exact le_refl 0
  · exact absurd hneg (not_lt.mpr hq)
  · unfold roundPos
    have hm : 0 ≤ q * (2 : ℚ) ^ ((52 : Int) - max (Int.log 2 q) (-1022)) :=
      mul_nonneg hq (by positivity)
    have hr := roundHalfEven_nonneg _ hm
    have hz : (0 : ℚ) ≤ (2 : ℚ) ^ (max (Int.log 2 q) (-1022) - 52) := by positivity
    exact mul_nonneg (by exact_mod_cast hr) hz

/-- Helper: binary64 rounding of a positive rational below `2 ^ 64`
moves it up by at most half an ulp, in particular by at most `2 ^ 10`. -/
theorem roundQ_le_add_pow10 (x : ℚ) (hx0 : 0 < x) (hxlt : x < 2 ^ 64) :
    roundQ x ≤ x + 2 ^ 10 := by
  have hlog : Int.log 2 x ≤ 63 := by
    by_contra hl
    push_neg at hl
    have h1 : (2 : ℚ) ^ (64 : Int) ≤ (2 : ℚ) ^ Int.log 2 x :=
      zpow_le_zpow_right₀ (by norm_num) (by omega)
    have h2 : (2 : ℚ) ^ Int.log 2 x ≤ x := Int.zpow_log_le_self (by norm_num) hx0
    have h3 : (2 : ℚ) ^ (64 : Int) = 2 ^ (64 : Nat) := by
      norm_num
    rw [h3] at h1
    linarith
  have hmax : max (Int.log 2 x) (-1022) ≤ 63 := by omega
  unfold roundQ
  rw [if_neg (ne_of_gt hx0), if_neg (not_lt.mpr (le_of_lt hx0))]
  unfold roundPos
  have hle := roundHalfEven_le (x * (2 : ℚ) ^ ((52 : Int) - max (Int.log 2 x) (-1022)))
  have hz : (0 : ℚ) < (2 : ℚ) ^ (max (Int.log 2 x) (-1022) - 52) := by positivity
  have hne : (2 : ℚ) ≠ 0 := two_ne_zero
  calc ((roundHalfEven (x * (2 : ℚ) ^ ((52 : Int) - max (Int.log 2 x) (-1022))) : Int) : ℚ)
        * (2 : ℚ) ^ (max (Int.log 2 x) (-1022) - 52)
      ≤ (x * (2 : ℚ) ^ ((52 : Int) - max (Int.log 2 x) (-1022)) + 1 / 2)
        * (2 : ℚ) ^ (max (Int.log 2 x) (-1022) - 52) :=
        mul_le_mul_of_nonneg_right hle (le_of_lt hz)
    _ = x * ((2 : ℚ) ^ ((52 : Int) - max (Int.log 2 x) (-1022))
          * (2 : ℚ) ^ (max (Int.log 2 x) (-1022) - 52))
        + (1 / 2) * (2 : ℚ) ^ (max (Int.log 2 x) (-1022) - 52) := by
        ring
    _ = x + (1 / 2) * (2 : ℚ) ^ (max (Int.log 2 x) (-1022) - 52) := by
        rw [← zpow_add₀ hne]
        norm_num
    _ ≤ x + 2 ^ 10 := by
        have hs : (2 : ℚ) ^ (max (Int.log 2 x) (-1022) - 52) ≤ (2 : ℚ) ^ (11 : Int) :=
          zpow_le_zpow_right₀ (by norm_num) (by omega)
        have h11 : (2 : ℚ) ^ (11 : Int) = 2 ^ (11 : Nat) := by norm_num
        rw [h11] at hs
        norm_num
        linarith

/-- Helper: the floor of the rounded scaled fraction fits a `u64`. -/
theorem floor_roundQ_le (x : ℚ) (hx0 : 0 ≤ x) (hxlt : x < (MAX_RAW : ℚ) + 1) :
    ⌊roundQ x⌋ ≤ (U64_MOD : Int) - 1 := by
  have hbound : roundQ x < ((U64_MOD : Int) : ℚ) := by
    rcases eq_or_lt_of_le hx0 with h | h
    · rw [← h]
      simp only [roundQ, if_pos rfl]
      simp only [U64_MOD]
      push_cast
      positivity
    · have hxlt64 : x < 2 ^ 64 := by
        have : (MAX_RAW : ℚ) + 1 < 2 ^ 64 := by norm_num [MAX_RAW]
        linarith
      have hb := roundQ_le_add_pow10 x h hxlt64
      have : (MAX_RAW : ℚ) + 1 + 2 ^ 10 < ((U64_MOD : Int) : ℚ) := by
        norm_num [MAX_RAW, U64_MOD]
      linarith
  have hfl : ⌊roundQ x⌋ < (U64_MOD : Int) := Int.floor_lt.mpr hbound
  omega

/-- C4 (amended): `try_from` returns `Err(NegativeValue)` exactly on
negative inputs, `Err(Overflow)` exactly on non-negative inputs greater
than `2 ^ 64` (which is `u64::MAX as f64`; the value `2 ^ 64` itself is
accepted), and on a finite `0 ≤ q ≤ 2 ^ 64` it returns `Ok` with
integral part `min ⌊q⌋ u64::MAX` (the saturating cast of `trunc`) and
fractional part `⌊fract(q) · (MAX_RAW + 1)⌋` computed after the binary64
round-to-nearest-even of the product, as the source's f64 multiply
rounds it (lossy). -/
theorem try_from_characterization (v : F64) :
    (Fixed.try_from v = .error .NegativeValue ↔ v.ltZero = true)
    ∧ (Fixed.try_from v = .error .Overflow ↔ (v.ltZero = false ∧ v.gtU64Max = true))
    ∧ (∀ q : ℚ, v = .finite q → 0 ≤ q → q ≤ U64_MAX_AS_F64 →
        Fixed.try_from v
          = .ok { integral := (min ⌊q⌋ ((U64_MOD : Int) - 1)).toNat,
                  decimal_fraction :=
                    (⌊roundQ ((q - ((⌊q⌋ : Int) : ℚ)) * ((MAX_RAW : ℚ) + 1))⌋).toNat }) := by
  refine ⟨?_, ?_, ?_⟩
  · unfold Fixed.try_from
    cases hlv : v.ltZero <;> cases hgv : v.gtU64Max <;> simp [hlv, hgv]
  · unfold Fixed.try_from
    cases hlv : v.ltZero <;> cases hgv : v.gtU64Max <;> simp [hlv, hgv]
  · rintro q rfl hq0 hqle
    have hlt : F64.ltZero (F64.finite q) = false := by
      simp only [F64.ltZero, decide_eq_false_iff_not, not_lt]
      exact hq0
    have hgt : F64.gtU64Max (F64.finite q) = false := by
      simp only [F64.gtU64Max, decide_eq_false_iff_not, not_lt]
      exact hqle
    have h1 : truncQ q = ⌊q⌋ := if_pos hq0
    have hfl0 : (0 : Int) ≤ ⌊q⌋ := Int.floor_nonneg.mpr hq0
    have h2 : truncQ ((⌊q⌋ : Int) : ℚ) = ⌊q⌋ := by
      rw [truncQ, if_pos (by exact_mod_cast hfl0)]
      exact Int.floor_intCast _
    have hfr0 : (0 : ℚ) ≤ (q - ((⌊q⌋ : Int) : ℚ)) * ((MAX_RAW : ℚ) + 1) :=
      mul_nonneg (sub_nonneg.mpr (Int.floor_le q)) (by positivity)
    have hfrlt : (q - ((⌊q⌋ : Int) : ℚ)) * ((MAX_RAW : ℚ) + 1) < (MAX_RAW : ℚ) + 1 := by
      have hl1 : q - ((⌊q⌋ : Int) : ℚ) < 1 := by
        have := Int.lt_floor_add_one q
        push_cast at this ⊢
        linarith
      calc (q - ((⌊q⌋ : Int) : ℚ)) * ((MAX_RAW : ℚ) + 1)
          < 1 * ((MAX_RAW : ℚ) + 1) := by
            exact mul_lt_mul_of_pos_right hl1 (by positivity)
        _ = (MAX_RAW : ℚ) + 1 := one_mul _
    have h3 : truncQ (roundQ ((q - ((⌊q⌋ : Int) : ℚ)) * ((MAX_RAW : ℚ) + 1)))
        = ⌊roundQ ((q - ((⌊q⌋ : Int) : ℚ)) * ((MAX_RAW : ℚ) + 1))⌋ :=
      if_pos (roundQ_nonneg _ hfr0)
    have h4 : min ⌊roundQ ((q - ((⌊q⌋ : Int) : ℚ)) * ((MAX_RAW : ℚ) + 1))⌋
          ((U64_MOD : Int) - 1)
        = ⌊roundQ ((q - ((⌊q⌋ : Int) : ℚ)) * ((MAX_RAW : ℚ) + 1))⌋ :=
      min_eq_left (floor_roundQ_le _ hfr0 hfrlt)
    simp only [Fixed.try_from, hlt, hgt, Bool.false_eq_true, if_false, F64.trunc,
      F64.fract, F64.mulNorm, F64.toU64, h1, h2, h3, h4]

/-- Witness for C4 (amended) at the double `7.0` (integral 7, exact zero
fraction, which the rounding fixes). -/
theorem try_from_characterization_witness :
    Fixed.try_from (F64.finite 7)
      = .ok { integral := 7, decimal_fraction := 0 } := by
  have h := (try_from_characterization (F64.finite 7)).2.2 7 rfl
    (by norm_num) (by rw [U64_MAX_AS_F64]; norm_num)
  rw [h]
  norm_num [roundQ, MAX_RAW, U64_MOD]
  omega

/-- Helper: the mutual-recursion list length equals the mapped sum. -/
theorem Value.listLen_eq_sum_map (xs : List Value) :
    Value.listLen xs = (xs.map Value.len).sum := by
  induction xs with
  | nil => simp [Value.listLen]
  | cons x xs ih => simp [Value.listLen, ih]

/-- C5 counterexample: a `SignatureCheckCondition` whose inner condition
expression has structural length 2 (for example `Raw(Vec([Bool]))` in the
source's expression language) is given `len` 2, not 1, because the
`SignatureCheckCondition` arm of `Value::len` returns `s.0.len()`. -/
theorem value_len_scc_not_one :
    Value.len (.signatureCheckCondition { expr := { size := 2, payload := [] } }) ≠ 1 := by
  simp [Value.len]

/-- C5 (amended): `Value::len` is 1 on every variant other than `Vec`,
`LimitedMetadata` and `SignatureCheckCondition`; a `Vec` has size 1 plus
the sum of its elements' sizes; a `LimitedMetadata` has size 1 plus its
nested element count; and a `SignatureCheckCondition` has the size of its
inner condition expression (not 1). -/
theorem value_len_characterization :
    (∀ x, (Value.u32 x).len = 1) ∧ (∀ x, (Value.u128 x).len = 1)
    ∧ (∀ b, (Value.bool b).len = 1) ∧ (∀ s, (Value.string s).len = 1)
    ∧ (∀ n, (Value.name n).len = 1) ∧ (∀ f, (Value.fixed f).len = 1)
    ∧ (∀ i, (Value.id i).len = 1) ∧ (∀ e, (Value.identifiable e).len = 1)
    ∧ (∀ k, (Value.publicKey k).len = 1) ∧ (∀ p, (Value.parameter p).len = 1)
    ∧ (∀ t, (Value.transactionValue t).len = 1)
    ∧ (∀ t, (Value.transactionQueryResult t).len = 1)
    ∧ (∀ t, (Value.permissionToken t).len = 1) ∧ (∀ h, (Value.hash h).len = 1)
    ∧ (∀ b, (Value.block b).len = 1) ∧ (∀ h, (Value.blockHeader h).len = 1)
    ∧ (∀ xs, (Value.vec xs).len = 1 + (xs.map Value.len).sum)
    ∧ (∀ m, (Value.limitedMetadata m).len = 1 + Value.nestedLen m)
    ∧ (∀ s, (Value.signatureCheckCondition s).len = s.expr.size) := by
  refine ⟨fun _ => rfl, fun _ => rfl, fun _ => rfl, fun _ => rfl, fun _ => rfl,
    fun _ => rfl, fun _ => rfl, fun _ => rfl, fun _ => rfl, fun _ => rfl,
    fun _ => rfl, fun _ => rfl, fun _ => rfl, fun _ => rfl, fun _ => rfl,
    fun _ => rfl, ?_, ?_, fun _ => rfl⟩
  · intro xs
    rw [show (Value.vec xs).len = Value.listLen xs + 1 from rfl]
    rw [Value.listLen_eq_sum_map]
    omega
  · intro m
    rw [show (Value.limitedMetadata m).len = Value.nestedLen m + 1 from rfl]
    omega

/-- C7: the `Ord` implementations of `BlockHeaderValue` and `BlockValue`
are determined solely by the timestamps: replacing every other field
leaves the verdict unchanged, and the verdict is exactly the `u128`
comparison of the timestamps. -/
theorem block_ordering_timestamp_only
    (a b a' b' : BlockHeaderValue) (u v u' v' : BlockValue)
    (ha : a.timestamp = a'.timestamp) (hb : b.timestamp = b'.timestamp)
    (hu : u.header.timestamp = u'.header.timestamp)
    (hv : v.header.timestamp = v'.header.timestamp) :
    BlockHeaderValue.cmp a b = BlockHeaderValue.cmp a' b'
    ∧ BlockValue.cmp u v = BlockValue.cmp u' v'
    ∧ BlockHeaderValue.cmp a b = compare a.timestamp b.timestamp
    ∧ BlockValue.cmp u v = compare u.header.timestamp v.header.timestamp := by
  refine ⟨?_, ?_, rfl, rfl⟩
  · simp [BlockHeaderValue.cmp, ha, hb]
  · simp [BlockValue.cmp, BlockHeaderValue.cmp, hu, hv]

/-- Witness for C7: headers and blocks with equal timestamps but
different heights and hashes compare identically. -/
theorem block_ordering_timestamp_only_witness :
    BlockHeaderValue.cmp
        { timestamp := 5, height := 1, previous_block_hash := ⟨[]⟩,
          transactions_hash := ⟨[]⟩, rejected_transactions_hash := ⟨[]⟩,
          invalidated_blocks_hashes := [], current_block_hash := ⟨[]⟩ }
        { timestamp := 7, height := 9, previous_block_hash := ⟨[0]⟩,
          transactions_hash := ⟨[]⟩, rejected_transactions_hash := ⟨[]⟩,
          invalidated_blocks_hashes := [], current_block_hash := ⟨[]⟩ }
      = BlockHeaderValue.cmp
        { timestamp := 5, height := 100, previous_block_hash := ⟨[1, 2]⟩,
          transactions_hash := ⟨[]⟩, rejected_transactions_hash := ⟨[]⟩,
          invalidated_blocks_hashes := [⟨[3]⟩], current_block_hash := ⟨[]⟩ }
        { timestamp := 7, height := 2, previous_block_hash := ⟨[]⟩,
          transactions_hash := ⟨[]⟩, rejected_transactions_hash := ⟨[]⟩,
          invalidated_blocks_hashes := [], current_block_hash := ⟨[]⟩ } := by
  exact (block_ordering_timestamp_only _ _ _ _ sampleBlock sampleBlock sampleBlock sampleBlock
    rfl rfl rfl rfl).1

/-- Helper: the varint emits the digits of `n` whenever it has fuel at
least `n`. -/
theorem decNat_encNatAux (fuel : Nat) :
    ∀ n rest, n ≤ fuel → decNat (encNatAux fuel n ++ rest) = some (n, rest) := by
  induction fuel with
  | zero =>
    intro n rest hn
    have : n = 0 := by omega
    subst this
    simp [encNatAux, decNat]
  | succ fuel ih =>
    intro n rest hn
    unfold encNatAux
    by_cases h : n < 128
    · simp [h, decNat]
    · rw [if_neg h]
      rw [List.cons_append]
      unfold decNat
      rw [if_neg (by omega)]
      rw [ih (n / 128) rest (by omega)]
      simp only [Option.some.injEq, Prod.mk.injEq, and_true]
      omega

/-- Helper: the varint length codec round-trips. -/
theorem decNat_encNat (n : Nat) (rest : List Nat) :
    decNat (encNat n ++ rest) = some (n, rest) :=
  decNat_encNatAux n n rest le_rfl

/-- Helper: reading back the scalar values of a string restores it. -/
theorem decChars_map_toNat (s : Str) :
    ∀ rest, decChars s.length (s.map Char.toNat ++ rest) = some (s, rest) := by
  induction s with
  | nil =>
    intro rest
    simp [decChars]
  | cons c cs ih =>
    intro rest
    simp only [List.length_cons, List.map_cons, List.cons_append, decChars, List.append_eq]
    rw [ih rest]
    simp

/-- Helper: the string codec round-trips. -/
theorem decStr_encStr (s : Str) (rest : List Nat) :
    decStr (encStr s ++ rest) = some (s, rest) := by
  unfold decStr encStr
  rw [List.append_assoc, decNat_encNat s.length (s.map Char.toNat ++ rest)]
  exact decChars_map_toNat s rest

/-- Helper: a successful `FromStr` parse returns the input string. -/
theorem from_str_ok_path (s : Str) (p : IpfsPath) (h : IpfsPath.from_str s = .ok p) :
    p = { path := s } := by
  unfold IpfsPath.from_str at h
  repeat' split at h
  all_goals simp_all

/-- Helper: decoding the encoding of a string is exactly the `FromStr`
verdict on that string. -/
theorem ipfs_decode_encode (s : Str) (rest : List Nat) :
    IpfsPath.decode (encStr s ++ rest)
      = match IpfsPath.from_str s with
        | .error e => .error e.reason
        | .ok p => .ok (p, rest) := by
  unfold IpfsPath.decode
  rw [decStr_encStr]

/-- C10: IPFS paths obtained from binary decoding always satisfy the
`FromStr` validity check, and decoding the encoding of a string yields
exactly what `FromStr` yields on that string: a parse error (carried as
the codec error) for a syntactically invalid path, the validated path
for a valid one. -/
theorem ipfs_decode_validates :
    (∀ bytes p rest, IpfsPath.decode bytes = .ok (p, rest) →
      IpfsPath.from_str p.path = .ok p)
    ∧ (∀ s rest, IpfsPath.decode (encStr s ++ rest)
        = match IpfsPath.from_str s with
          | .error e => .error e.reason
          | .ok p => .ok (p, rest)) := by
  constructor
  · intro bytes p rest h
    unfold IpfsPath.decode at h
    cases hd : decStr bytes with
    | none =>
      rw [hd] at h
      exact Except.noConfusion h
    | some pr =>
      obtain ⟨s, r⟩ := pr
      rw [hd] at h
      have h2 : (match IpfsPath.from_str s with
          | Except.error e => (Except.error e.reason : Except String (IpfsPath × List Nat))
          | Except.ok q => Except.ok (q, r)) = Except.ok (p, rest) := h
      cases hf : IpfsPath.from_str s with
      | error e =>
        rw [hf] at h2
        exact Except.noConfusion h2
      | ok q =>
        rw [hf] at h2
        rw [Except.ok.injEq, Prod.mk.injEq] at h2
        obtain ⟨hq, hr⟩ := h2
        have hps := from_str_ok_path s q hf
        rw [hq] at hps
        rw [hps]
        rw [hq, hps] at hf
        exact hf
  · intro s rest
    exact ipfs_decode_encode s rest

/-- Witness for C10: the concrete path `/ipns/ab` decodes from its own
encoding, and the decoded value passes the validity check. -/
theorem ipfs_decode_validates_witness :
    IpfsPath.from_str (IpfsPath.mk ("/ipns/ab".toList)).path
      = .ok (IpfsPath.mk ("/ipns/ab".toList)) := by
  exact ipfs_decode_validates.1 (encStr ("/ipns/ab".toList))
    (IpfsPath.mk ("/ipns/ab".toList)) [] rfl

/-- C8: against any WSV snapshot, an authority whose account does not
hold the `CanRegisterDomains` token is denied a Register-Domain
instruction, and an authority holding the token in the same WSV is
allowed the same instruction. -/
theorem register_domain_permission_verdicts (wsv : Wsv) (authority : String)
    (dname : String) :
    (wsv.hasToken authority CanRegisterDomains = false →
      grantedAllowedRegisterDomains authority (.registerDomain dname) wsv
        = .deny ("Account does not hold the can_register_domains token"))
    ∧ (wsv.hasToken authority CanRegisterDomains = true →
      grantedAllowedRegisterDomains authority (.registerDomain dname) wsv = .allow) := by
  constructor
  · intro h
    simp [grantedAllowedRegisterDomains, h]
  · intro h
    simp [grantedAllowedRegisterDomains, h]

/-- Witness for C8, mirroring the source test
`add_register_domains_permission_allows_registering_domain_with_right_token`:
in a world with one domain holding alice (token granted) and bob (no
tokens), alice's Register-Domain is allowed and bob's is denied. -/
theorem register_domain_permission_verdicts_witness :
    grantedAllowedRegisterDomains "alice@test0"
        (.registerDomain "newdomain")
        (Wsv.mk [PbDomain.mk "test0"
          [PbAccount.mk "alice@test0" [CanRegisterDomains],
           PbAccount.mk "bob@test0" []]])
      = .allow
    ∧ grantedAllowedRegisterDomains "bob@test0"
        (.registerDomain "newdomain")
        (Wsv.mk [PbDomain.mk "test0"
          [PbAccount.mk "alice@test0" [CanRegisterDomains],
           PbAccount.mk "bob@test0" []]])
      = .deny ("Account does not hold the can_register_domains token") := by
  constructor
  · exact (register_domain_permission_verdicts _ "alice@test0" "newdomain").2 rfl
  · exact (register_domain_permission_verdicts _ "bob@test0" "newdomain").1 rfl

/-- Helper: fixed-width words round-trip when the value fits the width. -/
theorem decFixedWidth_enc (w : Nat) :
    ∀ n rest, n < 256 ^ w →
      decFixedWidth w (encFixedWidth w n ++ rest) = some (n, rest) := by
  induction w with
  | zero =>
    intro n rest hn
    have hz : n = 0 := by simpa using hn
    subst hz
    simp [encFixedWidth, decFixedWidth]
  | succ w ih =>
    intro n rest hn
    have hdiv : n / 256 < 256 ^ w := by
      apply Nat.div_lt_of_lt_mul
      calc n < 256 ^ (w + 1) := hn
        _ = 256 * 256 ^ w := by ring
    simp only [encFixedWidth, List.cons_append]
    unfold decFixedWidth
    rw [ih (n / 256) rest hdiv]
    simp only [Option.some.injEq, Prod.mk.injEq, and_true]
    omega

/-- Helper: booleans round-trip. -/
theorem decBool_enc (b : Bool) (rest : List Nat) :
    decBool (encBool b ++ rest) = some (b, rest) := by
  cases b <;> simp [encBool, decBool]

/-- Helper: opaque leaves round-trip. -/
theorem decBlob_enc (x : Blob) (rest : List Nat) :
    decBlob (encBlob x ++ rest) = some (x, rest) := by
  unfold decBlob encBlob
  rw [List.append_assoc, decNat_encNat]
  have hle : x.bytes.length ≤ (x.bytes ++ rest).length := by simp
  simp only [if_pos hle, List.take_left, List.drop_left]

/-- Helper: names round-trip. -/
theorem decName_enc (n : Name) (rest : List Nat) :
    decName (encName n ++ rest) = some (n, rest) := by
  unfold decName encName
  rw [decStr_encStr]

/-- Helper: `Fixed` payloads round-trip when both fields fit a `u64`. -/
theorem decFixedPoint_enc (f : Fixed) (hi : f.integral < U64_MOD)
    (hd : f.decimal_fraction < U64_MOD) (rest : List Nat) :
    decFixedPoint (encFixedPoint f ++ rest) = some (f, rest) := by
  obtain ⟨fi, fd⟩ := f
  have h64 : (256 : Nat) ^ 8 = U64_MOD := by unfold U64_MOD; norm_num
  have e1 : ∀ r, decFixedWidth 8 (encFixedWidth 8 fi ++ r) = some (fi, r) :=
    fun r => decFixedWidth_enc 8 fi r (by simp only [] at hi; omega)
  have e2 : ∀ r, decFixedWidth 8 (encFixedWidth 8 fd ++ r) = some (fd, r) :=
    fun r => decFixedWidth_enc 8 fd r (by simp only [] at hd; omega)
  unfold decFixedPoint encFixedPoint
  simp only [List.append_assoc, e1, e2]

/-- Helper: the modelled condition expressions round-trip. -/
theorem decExpr_enc (e : ExprModel) (rest : List Nat) :
    decExpr (encExpr e ++ rest) = some (e, rest) := by
  obtain ⟨sz, pl⟩ := e
  unfold decExpr encExpr
  simp only [List.append_assoc, decNat_encNat, decBlob_enc]

/-- Helper: opaque map entries round-trip. -/
theorem decPairBlob_enc (p : Blob × Blob) (rest : List Nat) :
    decPairBlob (encPairBlob p ++ rest) = some (p, rest) := by
  obtain ⟨a, b⟩ := p
  unfold decPairBlob encPairBlob
  simp only [List.append_assoc, decBlob_enc]

/-- Helper: counted sequences round-trip elementwise. -/
theorem decCount_enc {α : Type} (dec : List Nat → Option (α × List Nat))
    (f : α → List Nat) (xs : List α)
    (hx : ∀ x ∈ xs, ∀ r, dec (f x ++ r) = some (x, r)) :
    ∀ rest, decCount dec xs.length ((xs.map f).flatten ++ rest) = some (xs, rest) := by
  induction xs with
  | nil =>
    intro rest
    simp [decCount]
  | cons x xs ih =>
    intro rest
    have e1 := hx x (List.mem_cons_self x xs)
    have e2 := ih (fun y hy r => hx y (List.mem_cons_of_mem x hy) r)
    simp only [List.map_cons, List.flatten_cons, List.length_cons, List.append_assoc]
    unfold decCount
    simp only [e1, e2]

/-- Helper: length-prefixed lists round-trip elementwise. -/
theorem decListWith_enc {α : Type} (dec : List Nat → Option (α × List Nat))
    (f : α → List Nat) (xs : List α)
    (hx : ∀ x ∈ xs, ∀ r, dec (f x ++ r) = some (x, r)) (rest : List Nat) :
    decListWith dec (encListWith f xs ++ rest) = some (xs, rest) := by
  unfold decListWith encListWith
  rw [List.append_assoc, decNat_encNat]
  exact decCount_enc dec f xs hx rest

/-- Helper: optional fields round-trip. -/
theorem decOptionWith_enc {α : Type} (dec : List Nat → Option (α × List Nat))
    (f : α → List Nat) (o : Option α)
    (hx : ∀ x ∈ o, ∀ r, dec (f x ++ r) = some (x, r)) (rest : List Nat) :
    decOptionWith dec (encOptionWith f o ++ rest) = some (o, rest) := by
  cases o with
  | none => simp [encOptionWith, decOptionWith]
  | some x =>
    have e1 := hx x (by simp)
    simp only [encOptionWith, List.cons_append]
    unfold decOptionWith
    simp [e1]

/-- Helper: valid IPFS paths round-trip through the validating decode. -/
theorem decIpfsOpt_enc (p : IpfsPath) (h : validIpfs p = true) (rest : List Nat) :
    decIpfsOpt (encIpfsPath p ++ rest) = some (p, rest) := by
  unfold decIpfsOpt encIpfsPath
  rw [ipfs_decode_encode p.path rest]
  unfold validIpfs at h
  cases hf : IpfsPath.from_str p.path with
  | error e =>
    rw [hf] at h
    simp at h
  | ok q =>
    have hq := from_str_ok_path p.path q hf
    subst hq
    simp [hf]

/-- Helper: block headers round-trip when their machine words fit. -/
theorem decHeader_enc (h : BlockHeaderValue) (hw : wfHeader h = true) (rest : List Nat) :
    decHeader (encHeader h ++ rest) = some (h, rest) := by
  obtain ⟨ts, ht, pbh, th, rth, inv, cbh⟩ := h
  unfold wfHeader at hw
  simp only [Bool.and_eq_true, decide_eq_true_eq] at hw
  obtain ⟨hts, hht⟩ := hw
  have h128 : (256 : Nat) ^ 16 = U128_MOD := by unfold U128_MOD; norm_num
  have h64 : (256 : Nat) ^ 8 = U64_MOD := by unfold U64_MOD; norm_num
  have e1 : ∀ r, decFixedWidth 16 (encFixedWidth 16 ts ++ r) = some (ts, r) :=
    fun r => decFixedWidth_enc 16 ts r (by omega)
  have e2 : ∀ r, decFixedWidth 8 (encFixedWidth 8 ht ++ r) = some (ht, r) :=
    fun r => decFixedWidth_enc 8 ht r (by omega)
  have e3 : ∀ (xs : List Blob) r,
      decListWith decBlob (encListWith encBlob xs ++ r) = some (xs, r) :=
    fun xs r => decListWith_enc decBlob encBlob xs (fun x _ rr => decBlob_enc x rr) r
  unfold encHeader decHeader
  simp only [List.append_assoc, e1, e2, decBlob_enc, e3]

/-- Helper: blocks round-trip when their header's machine words fit. -/
theorem decBlockValue_enc (b : BlockValue) (hw : wfBlockValue b = true) (rest : List Nat) :
    decBlockValue (encBlockValue b ++ rest) = some (b, rest) := by
  obtain ⟨h, txs, rtxs, evs⟩ := b
  have e3 : ∀ (xs : List Blob) r,
      decListWith decBlob (encListWith encBlob xs ++ r) = some (xs, r) :=
    fun xs r => decListWith_enc decBlob encBlob xs (fun x _ rr => decBlob_enc x rr) r
  have eh : ∀ r, decHeader (encHeader h ++ r) = some (h, r) :=
    fun r => decHeader_enc h hw r
  unfold encBlockValue decBlockValue
  simp only [List.append_assoc, eh, e3]

/-- Helper: every value has nesting depth at least one. -/
theorem one_le_depthValue (v : Value) : 1 ≤ depthValue v := by
  cases v <;> simp [depthValue]

/-- Helper: the decoder with sufficient fuel inverts the encoder, for
values, value sequences and metadata maps simultaneously. -/
theorem codec_roundtrip_mutual (fuel : Nat) :
    (∀ v, wfValue v = true → depthValue v ≤ fuel →
      ∀ rest, decValue fuel (encValue v ++ rest) = some (v, rest))
    ∧ (∀ xs, wfValueList xs = true → depthValueList xs ≤ fuel →
      ∀ rest, decValueCount fuel xs.length (encValueList xs ++ rest) = some (xs, rest))
    ∧ (∀ m, wfMetaEntries m = true → depthMetaEntries m ≤ fuel →
      ∀ rest, decMetaCount fuel m.length (encMetaEntries m ++ rest) = some (m, rest)) := by
  induction fuel using Nat.strong_induction_on with
  | _ fuel ih =>
    have hval : ∀ v, wfValue v = true → depthValue v ≤ fuel →
        ∀ rest, decValue fuel (encValue v ++ rest) = some (v, rest) := by
      intro v hwf hdep rest
      cases fuel with
      | zero => exact absurd hdep (by have := one_le_depthValue v; omega)
      | succ fuel =>
        cases v with
        | u32 x =>
          have hx : x < 256 ^ 4 := by
            have h32 : x < 2 ^ 32 := by simpa [wfValue] using hwf
            norm_num at h32 ⊢
            omega
          have e1 : ∀ r, decFixedWidth 4 (encFixedWidth 4 x ++ r) = some (x, r) :=
            fun r => decFixedWidth_enc 4 x r hx
          simp [encValue, decValue, e1]
        | u128 x =>
          have hx : x < 256 ^ 16 := by
            have h128 : x < U128_MOD := by simpa [wfValue] using hwf
            unfold U128_MOD at h128
            norm_num at h128 ⊢
            omega
          have e1 : ∀ r, decFixedWidth 16 (encFixedWidth 16 x ++ r) = some (x, r) :=
            fun r => decFixedWidth_enc 16 x r hx
          simp [encValue, decValue, e1]
        | bool b =>
          simp [encValue, decValue, decBool_enc]
        | string s =>
          simp [encValue, decValue, decStr_encStr]
        | name n =>
          simp [encValue, decValue, decName_enc]
        | fixed f =>
          have hb : f.integral < U64_MOD ∧ f.decimal_fraction < U64_MOD := by
            simpa [wfValue] using hwf
          have e1 : ∀ r, decFixedPoint (encFixedPoint f ++ r) = some (f, r) :=
            fun r => decFixedPoint_enc f hb.1 hb.2 r
          simp [encValue, decValue, e1]
        | vec xs =>
          have hwf' : wfValueList xs = true := by simpa [wfValue] using hwf
          have hdep' : depthValueList xs ≤ fuel := by
            have : depthValueList xs + 1 ≤ fuel + 1 := by
              simpa [depthValue] using hdep
            omega
          have e2 : ∀ r, decValueCount fuel xs.length (encValueList xs ++ r)
              = some (xs, r) :=
            fun r => (ih fuel (by omega)).2.1 xs hwf' hdep' r
          simp [encValue, decValue, decNat_encNat, e2, List.append_assoc]
        | limitedMetadata m =>
          have hwf' : wfMetaEntries m = true := by simpa [wfValue] using hwf
          have hdep' : depthMetaEntries m ≤ fuel := by
            have : depthMetaEntries m + 1 ≤ fuel + 1 := by
              simpa [depthValue] using hdep
            omega
          have e2 : ∀ r, decMetaCount fuel m.length (encMetaEntries m ++ r)
              = some (m, r) :=
            fun r => (ih fuel (by omega)).2.2 m hwf' hdep' r
          simp [encValue, decValue, decNat_encNat, e2, List.append_assoc]
        | id i =>
          simp [encValue, decValue, decBlob_enc]
        | identifiable e =>
          simp [encValue, decValue, decBlob_enc]
        | publicKey k =>
          simp [encValue, decValue, decBlob_enc]
        | parameter p =>
          simp [encValue, decValue, decBlob_enc]
        | signatureCheckCondition s =>
          simp [encValue, decValue, decExpr_enc]
        | transactionValue t =>
          simp [encValue, decValue, decBlob_enc]
        | transactionQueryResult t =>
          simp [encValue, decValue, decBlob_enc]
        | permissionToken t =>
          simp [encValue, decValue, decBlob_enc]
        | hash h =>
          simp [encValue, decValue, decBlob_enc]
        | block b =>
          have hb : wfBlockValue b = true := by simpa [wfValue] using hwf
          have e1 : ∀ r, decBlockValue (encBlockValue b ++ r) = some (b, r) :=
            fun r => decBlockValue_enc b hb r
          simp [encValue, decValue, e1]
        | blockHeader h =>
          have hb : wfHeader h = true := by simpa [wfValue] using hwf
          have e1 : ∀ r, decHeader (encHeader h ++ r) = some (h, r) :=
            fun r => decHeader_enc h hb r
          simp [encValue, decValue, e1]
    have hlist : ∀ xs, wfValueList xs = true → depthValueList xs ≤ fuel →
        ∀ rest, decValueCount fuel xs.length (encValueList xs ++ rest) = some (xs, rest) := by
      intro xs
      induction xs with
      | nil =>
        intro _ _ rest
        simp [encValueList, decValueCount]
      | cons x xs ihx =>
        intro hwf hdep rest
        simp only [wfValueList, Bool.and_eq_true] at hwf
        simp only [depthValueList] at hdep
        have e1 : ∀ r, decValue fuel (encValue x ++ r) = some (x, r) :=
          fun r => hval x hwf.1 (by omega) r
        have e2 := ihx hwf.2 (by omega)
        simp only [encValueList, List.length_cons, List.append_assoc]
        unfold decValueCount
        simp only [e1, e2]
    have hmeta : ∀ m, wfMetaEntries m = true → depthMetaEntries m ≤ fuel →
        ∀ rest, decMetaCount fuel m.length (encMetaEntries m ++ rest) = some (m, rest) := by
      intro m
      induction m with
      | nil =>
        intro _ _ rest
        simp [encMetaEntries, decMetaCount]
      | cons p ps ihp =>
        obtain ⟨nm, v⟩ := p
        intro hwf hdep rest
        simp only [wfMetaEntries, Bool.and_eq_true] at hwf
        simp only [depthMetaEntries] at hdep
        have e1 : ∀ r, decValue fuel (encValue v ++ r) = some (v, r) :=
          fun r => hval v hwf.1 (by omega) r
        have e2 := ihp hwf.2 (by omega)
        simp only [encMetaEntries, List.length_cons, List.append_assoc]
        unfold decMetaCount
        simp only [decName_enc, e1, e2]
    exact ⟨hval, hlist, hmeta⟩

/-- C6: a decode-after-encode round trip is the identity on every
representable `Value` (with any decoder fuel at least its nesting
depth), every representable `Domain` (valid logo path, representable
metadata), and every representable `BlockValue`. -/
theorem encode_decode_identity :
    (∀ (v : Value) (fuel : Nat) (rest : List Nat), wfValue v = true →
      depthValue v ≤ fuel → decValue fuel (encValue v ++ rest) = some (v, rest))
    ∧ (∀ (d : Domain) (fuel : Nat) (rest : List Nat), wfDomain d = true →
      depthMetaEntries d.metadata ≤ fuel →
      decDomain fuel (encDomain d ++ rest) = some (d, rest))
    ∧ (∀ (b : BlockValue) (rest : List Nat), wfBlockValue b = true →
      decBlockValue (encBlockValue b ++ rest) = some (b, rest)) := by
  refine ⟨?_, ?_, ?_⟩
  · intro v fuel rest hwf hdep
    exact (codec_roundtrip_mutual fuel).1 v hwf hdep rest
  · intro d fuel rest hwf hdep
    obtain ⟨⟨nm⟩, accs, adefs, lg, meta⟩ := d
    unfold wfDomain at hwf
    simp only [Bool.and_eq_true] at hwf
    obtain ⟨hlg, hmeta⟩ := hwf
    have epair : ∀ (xs : List (Blob × Blob)) r,
        decListWith decPairBlob (encListWith encPairBlob xs ++ r) = some (xs, r) :=
      fun xs r => decListWith_enc decPairBlob encPairBlob xs
        (fun x _ rr => decPairBlob_enc x rr) r
    have eopt : ∀ r, decOptionWith decIpfsOpt (encOptionWith encIpfsPath lg ++ r)
        = some (lg, r) := by
      intro r
      apply decOptionWith_enc
      intro x hx rr
      apply decIpfsOpt_enc
      cases lg with
      | none => simp at hx
      | some p =>
        have hxp : p = x := by simpa using hx
        subst hxp
        simpa using hlg
    have emeta : ∀ r, decMetaCount fuel meta.length (encMetaEntries meta ++ r)
        = some (meta, r) :=
      fun r => (codec_roundtrip_mutual fuel).2.2 meta hmeta (by simpa using hdep) r
    unfold encDomain decDomain
    simp only [List.append_assoc, decName_enc, epair, eopt, decNat_encNat, emeta]
  · intro b rest hwf
    exact decBlockValue_enc b hwf rest

/-- Witness for C6: a nested sequence value, a domain with a logo and a
metadata entry, and a trivial block each decode back from their own
encodings. -/
theorem encode_decode_identity_witness :
    decValue 2 (encValue (Value.vec [Value.u32 7, Value.bool true]) ++ [9])
      = some (Value.vec [Value.u32 7, Value.bool true], [9])
    ∧ decDomain 1 (encDomain sampleDomain ++ []) = some (sampleDomain, [])
    ∧ decBlockValue (encBlockValue sampleBlock ++ []) = some (sampleBlock, []) := by
  refine ⟨?_, ?_, ?_⟩
  · exact encode_decode_identity.1 _ 2 [9]
      (by simp [wfValue, wfValueList])
      (by simp [depthValue, depthValueList])
  · exact encode_decode_identity.2.1 sampleDomain 1 []
      (by simp [sampleDomain, wfDomain, validIpfs, wfMetaEntries, wfValue]; rfl)
      (by simp [sampleDomain, depthMetaEntries, depthValue])
  · exact encode_decode_identity.2.2 sampleBlock []
      (by simp [wfBlockValue, wfHeader, sampleBlock, sampleHeader, U128_MOD, U64_MOD])
